import Mathlib

/-!
Verification development for the parallel nonce-search mining client
(`src/mine.rs`).  The Rust source is shallowly embedded: machine integers
become `Nat`/`Int` with explicit clamping where the source uses saturating
arithmetic, fallible operations become `Option`, and the shared mutable
state touched by worker threads (wall clock, shared best-difficulty cell)
is passed explicitly or supplied as oracle functions describing the values
observed at each loop iteration.
-/

/-! ## Machine-integer model -/

/-- Largest `u64` value, `u64::MAX`. -/
def u64Max : Nat := 2 ^ 64 - 1

/-- Smallest `i64` value. -/
def i64Min : Int := -(2 ^ 63)

/-- Largest `i64` value. -/
def i64Max : Int := 2 ^ 63 - 1

/-- Clamp an unbounded integer into the `i64` range; this is the effect of
saturating arithmetic in Rust applied to the mathematical result. -/
def clamp64 (x : Int) : Int :=
  if x < i64Min then i64Min else if x ≤ i64Max then x else i64Max

/-- Rust `i64::saturating_add`. -/
def satAdd64 (a b : Int) : Int := clamp64 (a + b)

/-- Rust `i64::saturating_sub`. -/
def satSub64 (a b : Int) : Int := clamp64 (a - b)

/-- Rust `u64 as i64` cast (wrap modulo 2 to the 64), used in `get_cutoff`
on the user-supplied `buffer_time` value. -/
def u64_as_i64 (b : Nat) : Int :=
  if b < 2 ^ 63 then (b : Int) else (b : Int) - 2 ^ 64

theorem clamp64_of_le (x : Int) (hlo : i64Min ≤ x) (hhi : x ≤ i64Max) :
    clamp64 x = x := by
  unfold clamp64
  rw [if_neg (by omega), if_pos hhi]

theorem satAdd64_eq (a b : Int) (hlo : i64Min ≤ a + b) (hhi : a + b ≤ i64Max) :
    satAdd64 a b = a + b := clamp64_of_le _ hlo hhi

theorem satSub64_eq (a b : Int) (hlo : i64Min ≤ a - b) (hhi : a - b ≤ i64Max) :
    satSub64 a b = a - b := clamp64_of_le _ hlo hhi

/-! ## Epoch-reset eligibility (`should_reset`, src/mine.rs lines 231-241)

The source computes
`config.last_reset_at.saturating_add(EPOCH_DURATION).saturating_sub(5).le(&clock.unix_timestamp)`
when the clock fetch succeeds, and returns `false` when it fails.  The
epoch duration and the 5-second buffer are i64 constants in the source;
they are kept as parameters here because the claim quantifies over them. -/

/-- The boundary test at the heart of `should_reset`, on i64 values with
the saturating arithmetic of the source. -/
def should_reset_at (last_reset_at epoch_duration buffer now : Int) : Bool :=
  decide (satSub64 (satAdd64 last_reset_at epoch_duration) buffer ≤ now)

/-- Full `should_reset`: `false` when the clock cannot be fetched. -/
def should_reset (last_reset_at epoch_duration buffer : Int)
    (clock : Option Int) : Bool :=
  match clock with
  | some now => should_reset_at last_reset_at epoch_duration buffer now
  | none => false

/-! ## Cutoff computation (`get_cutoff`, src/mine.rs lines 243-254)

`proof.last_hash_at.saturating_add(60).saturating_sub(buffer_time as i64)
.saturating_sub(clock.unix_timestamp).max(0) as u64`, with a fixed default
of 60 when the clock fetch fails. -/

/-- `get_cutoff` on the embedded integers.  `buffer_time` is the `u64`
CLI argument, cast with `as i64` exactly as in the source. -/
def get_cutoff (last_hash_at : Int) (buffer_time : Nat) (clock : Option Int) :
    Nat :=
  match clock with
  | some now =>
      (max (satSub64 (satSub64 (satAdd64 last_hash_at 60) (u64_as_i64 buffer_time)) now) 0).toNat
  | none => 60

/-- C5: the claim says the boundary test holds for every `lastResetAt`,
`epochDuration`, `safetyBuffer`, `now`; the saturating i64
arithmetic breaks the pure formula at the top of the i64 range:
at `lastResetAt = i64::MAX`, `now = i64::MAX` the code answers `true`
although `now < lastResetAt + 60 - 5`. -/
theorem should_reset_at_not_pure_boundary :
    should_reset_at i64Max 60 5 i64Max = true ∧
      ¬ ((i64Max : Int) + 60 - 5 ≤ i64Max) := by
  constructor
  · decide
  · decide

/-- C5 (amended): away from i64 saturation (bounds `2^61` comfortably cover
all realistic timestamps and durations) `should_reset_at` is exactly the
pure boundary test `now ≥ lastResetAt + epochDuration - buffer`: false just
below the boundary and true exactly at it. -/
theorem should_reset_at_boundary (last epoch buffer now : Int)
    (h1 : -(2 ^ 61) ≤ last) (h2 : last ≤ 2 ^ 61)
    (h3 : 0 ≤ epoch) (h4 : epoch ≤ 2 ^ 61)
    (h5 : 0 ≤ buffer) (h6 : buffer ≤ 2 ^ 61) :
    (should_reset_at last epoch buffer now = true ↔
        last + epoch - buffer ≤ now) ∧
      should_reset_at last epoch buffer (last + epoch - buffer) = true ∧
      should_reset_at last epoch buffer (last + epoch - buffer - 1) = false := by
  have hadd : satAdd64 last epoch = last + epoch := by
    apply satAdd64_eq <;> (simp only [i64Min, i64Max]; omega)
  have hsub : satSub64 (last + epoch) buffer = last + epoch - buffer := by
    apply satSub64_eq <;> (simp only [i64Min, i64Max]; omega)
  unfold should_reset_at
  rw [hadd, hsub]
  refine ⟨?_, ?_, ?_⟩
  · exact decide_eq_true_iff
  · simp
  · simp

/-- C5 witness. -/
theorem should_reset_at_boundary_witness :
    should_reset_at 1000 60 5 1055 = true ∧
      should_reset_at 1000 60 5 1054 = false :=
  ⟨(should_reset_at_boundary 1000 60 5 1055 (by decide) (by decide) (by decide)
      (by decide) (by decide) (by decide)).2.1,
    (should_reset_at_boundary 1000 60 5 1054 (by decide) (by decide) (by decide)
      (by decide) (by decide) (by decide)).2.2⟩

/-- C6: the pure formula of the claim, `max(0, lastHashAt + 60 - buffer - now)`
fails for every input only because of the `u64 as i64` cast and the
saturating arithmetic: at `buffer_time = 2^63` the cast wraps negative and
the saturating subtraction pins the cutoff at `i64::MAX` although the pure
formula gives `0`. -/
theorem get_cutoff_not_pure_formula :
    get_cutoff 0 (2 ^ 63) (some 0) = 2 ^ 63 - 1 ∧
      ¬ ((get_cutoff 0 (2 ^ 63) (some 0) : Int) = max 0 (0 + 60 - 2 ^ 63 - 0)) := by
  constructor
  · decide
  · decide

/-- C6 (amended): away from i64 saturation and for `buffer_time < 2^63`
(bounds `2^61` cover all realistic values), the cutoff is exactly
`max(0, lastHashAt + 60 - bufferSeconds - now)`; and when the chain clock
cannot be obtained the result is the fixed default 60. -/
theorem get_cutoff_formula (last : Int) (buffer : Nat) (now : Int)
    (h1 : -(2 ^ 61) ≤ last) (h2 : last ≤ 2 ^ 61)
    (h3 : buffer ≤ 2 ^ 61)
    (h4 : -(2 ^ 61) ≤ now) (h5 : now ≤ 2 ^ 61) :
    (get_cutoff last buffer (some now) : Int) =
        max 0 (last + 60 - (buffer : Int) - now) ∧
      get_cutoff last buffer none = 60 := by
  have hb : (buffer : Int) ≤ 2 ^ 61 := by exact_mod_cast h3
  have hcast : u64_as_i64 buffer = (buffer : Int) := by
    unfold u64_as_i64
    rw [if_pos]
    exact_mod_cast (by omega : buffer < 2 ^ 63)
  have hadd : satAdd64 last 60 = last + 60 := by
    apply satAdd64_eq <;> (simp only [i64Min, i64Max]; omega)
  have hsub1 : satSub64 (last + 60) (buffer : Int) = last + 60 - buffer := by
    apply satSub64_eq <;> (simp only [i64Min, i64Max]; omega)
  have hsub2 : satSub64 (last + 60 - buffer) now = last + 60 - buffer - now := by
    apply satSub64_eq <;> (simp only [i64Min, i64Max]; omega)
  constructor
  · show ((max (satSub64 (satSub64 (satAdd64 last 60) (u64_as_i64 buffer)) now) 0).toNat : Int) = _
    rw [hcast, hadd, hsub1, hsub2]
    rw [Int.toNat_of_nonneg (le_max_right _ _)]
    exact max_comm _ _
  · rfl

/-- C6 witness. -/
theorem get_cutoff_formula_witness :
    (get_cutoff 1000 5 (some 1020) : Int) = max 0 (1000 + 60 - 5 - 1020) :=
  (get_cutoff_formula 1000 5 1020 (by decide) (by decide) (by decide)
    (by decide) (by decide)).1

/-! ## Worker count (`find_hash_par` line 115 and `check_num_cores`, lines 220-229)

`find_hash_par` sets `num_threads = num_cpus::get()` and never receives the
user-supplied `args.cores`; `check_num_cores` only prints a warning when the
requested count exceeds the available logical cores. -/

/-- Number of worker threads spawned by the search: always the available
logical core count; the user-supplied cap is never consulted
(`find_hash_par` does not receive it). -/
def worker_count (available_cores : Nat) (cores_arg : Nat) : Nat :=
  available_cores

/-- `check_num_cores`: emits a warning exactly when the requested core
count exceeds the available count (`cores.gt(&num_cores)`). -/
def cores_warning (available_cores : Nat) (cores_arg : Nat) : Bool :=
  decide (available_cores < cores_arg)

/-- C2: the claim says the worker count is reduced to the user-supplied cap
when the cap is smaller; with 4 available cores and a cap of 2 the search
still spawns 4 workers, and no warning is emitted either. -/
theorem worker_count_cap_not_applied :
    worker_count 4 2 = 4 ∧ worker_count 4 2 ≠ 2 ∧
      cores_warning 4 2 = false := by
  decide

/-- C2 (amended): the number of workers spawned always equals the available
logical core count — the user cap is advisory only and never applied to the
spawn count — and a (non-fatal) warning is emitted exactly when the
requested cap exceeds the available count. -/
theorem worker_count_eq_available (available_cores cores_arg : Nat) :
    worker_count available_cores cores_arg = available_cores ∧
      (cores_warning available_cores cores_arg = true ↔
        available_cores < cores_arg) :=
  ⟨rfl, decide_eq_true_iff⟩

/-! ## Bus selection (`find_bus`, src/mine.rs lines 256-285)

`BUS_ADDRESSES` is a fixed array of `BUS_COUNT = 8` distinct addresses.
Addresses are modelled by their index into that array, so index equality
coincides with address equality.  The batch fetch result is
`Option (List (Option (Option MBus)))`: `none` when the whole RPC call
fails, one entry per address otherwise, with `none` for a missing account
and `some none` standing for a present account whose deserialization
fails.  The `rand::thread_rng().gen_range(0..BUS_COUNT)` draw of the
fallback path is modelled by an oracle natural number reduced into range. -/

/-- Number of bus accounts (`BUS_COUNT` from ore_api). -/
def BUS_COUNT : Nat := 8

/-- A deserialized bus account: its `id` field and reward balance. -/
structure MBus where
  id : Nat
  rewards : Nat
  deriving DecidableEq, Repr

/-- One guarded compare-and-update of the shared `top_bus` pair
`(rewards, address)` (lines 268-271): replace only on a strictly greater
reward, recording `BUS_ADDRESSES[bus.id]` (modelled as the index). -/
def busStep (best : Nat × Nat) (b : MBus) : Nat × Nat :=
  if b.rewards > best.1 then (b.rewards, b.id) else best

/-- Fold of `busStep` over one completion order of the fan-out, starting
from the initial `(0, BUS_ADDRESSES[0])`. -/
def find_bus_success (bs : List MBus) : Nat × Nat :=
  bs.foldl busStep (0, 0)

/-- Per-account step: missing accounts and failed deserializations are
skipped (lines 266-267). -/
def busAccountStep (best : Nat × Nat) (acct : Option (Option MBus)) :
    Nat × Nat :=
  match acct with
  | some (some b) => busStep best b
  | _ => best

/-- `find_bus`: on batch-fetch success, fold the guarded update over the
fetched accounts and return the recorded address; on batch-fetch failure,
return a random in-range index into `BUS_ADDRESSES`. -/
def find_bus (fetch : Option (List (Option (Option MBus)))) (rng : Nat) :
    Nat :=
  match fetch with
  | some accounts => (accounts.foldl busAccountStep (0, 0)).2
  | none => rng % BUS_COUNT

/-- The fetch result when every account is present and deserializes. -/
def accountsOf (bs : List MBus) : List (Option (Option MBus)) :=
  bs.map (fun b => some (some b))

theorem foldl_accountsOf (bs : List MBus) (acc : Nat × Nat) :
    (accountsOf bs).foldl busAccountStep acc = bs.foldl busStep acc := by
  induction bs generalizing acc with
  | nil => rfl
  | cons hd tl ih =>
      simp only [accountsOf, List.map_cons, List.foldl_cons]
      exact ih (busStep acc hd)

theorem busStep_fst_le (acc : Nat × Nat) (b : MBus) :
    acc.1 ≤ (busStep acc b).1 := by
  unfold busStep
  split
  · exact Nat.le_of_lt (by assumption)
  · exact Nat.le_refl _

theorem foldl_busStep_fst_le (bs : List MBus) (acc : Nat × Nat) :
    acc.1 ≤ (bs.foldl busStep acc).1 := by
  induction bs generalizing acc with
  | nil => exact Nat.le_refl _
  | cons hd tl ih =>
      exact Nat.le_trans (busStep_fst_le acc hd) (ih (busStep acc hd))

theorem foldl_busStep_rewards_le (bs : List MBus) (acc : Nat × Nat)
    (b : MBus) (hb : b ∈ bs) : b.rewards ≤ (bs.foldl busStep acc).1 := by
  induction bs generalizing acc with
  | nil => cases hb
  | cons hd tl ih =>
      rcases List.mem_cons.mp hb with hhd | htl
      · subst hhd
        refine Nat.le_trans ?_ (foldl_busStep_fst_le tl (busStep acc b))
        unfold busStep
        split
        · exact Nat.le_refl _
        · omega
      · exact ih (busStep acc hd) htl

theorem foldl_busStep_mem (bs : List MBus) (acc : Nat × Nat) :
    bs.foldl busStep acc = acc ∨
      ∃ b ∈ bs, bs.foldl busStep acc = (b.rewards, b.id) := by
  induction bs generalizing acc with
  | nil => exact Or.inl rfl
  | cons hd tl ih =>
      rw [List.foldl_cons]
      by_cases h : hd.rewards > acc.1
      · right
        have hstep : busStep acc hd = (hd.rewards, hd.id) := by
          unfold busStep; rw [if_pos h]
        rcases ih (busStep acc hd) with heq | ⟨b, hb, heq⟩
        · exact ⟨hd, List.mem_cons_self _ _, by rw [heq, hstep]⟩
        · exact ⟨b, List.mem_cons_of_mem _ hb, heq⟩
      · have hstep : busStep acc hd = acc := by
          unfold busStep; rw [if_neg h]
        rw [hstep]
        rcases ih acc with heq | ⟨b, hb, heq⟩
        · exact Or.inl heq
        · exact Or.inr ⟨b, List.mem_cons_of_mem _ hb, heq⟩

/-- C7: the claim as stated fails in the corner where every fetched bus has
zero rewards: no update ever fires, so the initial `BUS_ADDRESSES[0]` is
returned even when no fetched bus is associated with address index 0 (here
all eight buses carry id 1, a valid index). -/
theorem find_bus_claim_counterexample :
    (∀ b ∈ List.replicate 8 (MBus.mk 1 0), b.id < BUS_COUNT) ∧
      ¬ ∃ b ∈ List.replicate 8 (MBus.mk 1 0),
          find_bus (some (accountsOf (List.replicate 8 (MBus.mk 1 0)))) 0 = b.id ∧
            ∀ b2 ∈ List.replicate 8 (MBus.mk 1 0), b2.rewards ≤ b.rewards := by
  decide

/-- C7 (amended): when the batch fetch succeeds, every bus is present and
deserializes with a valid id, and at least one fetched bus has a strictly
positive reward, `find_bus` returns `BUS_ADDRESSES[b.id]` for a fetched bus
`b` whose reward is greatest; when all fetched rewards are zero it returns
the initial default `BUS_ADDRESSES[0]`. -/
theorem find_bus_selects_max (bs : List MBus) (rng : Nat)
    (h1 : ∀ b ∈ bs, b.id < BUS_COUNT)
    (h2 : ∃ b ∈ bs, 0 < b.rewards) :
    ∃ b ∈ bs, find_bus (some (accountsOf bs)) rng = b.id ∧
      b.id < BUS_COUNT ∧ ∀ b2 ∈ bs, b2.rewards ≤ b.rewards := by
  obtain ⟨b0, hb0, hb0pos⟩ := h2
  have hrw : find_bus (some (accountsOf bs)) rng = (bs.foldl busStep (0, 0)).2 := by
    show ((accountsOf bs).foldl busAccountStep (0, 0)).2 = _
    rw [foldl_accountsOf]
  rcases foldl_busStep_mem bs (0, 0) with heq | ⟨b, hb, heq⟩
  · exfalso
    have := foldl_busStep_rewards_le bs (0, 0) b0 hb0
    rw [heq] at this
    omega
  · refine ⟨b, hb, ?_, h1 b hb, ?_⟩
    · rw [hrw, heq]
    · intro b2 hb2
      have := foldl_busStep_rewards_le bs (0, 0) b2 hb2
      rw [heq] at this
      exact this

/-- C7 witness. -/
theorem find_bus_selects_max_witness :
    ∃ b ∈ [MBus.mk 2 5, MBus.mk 1 7],
      find_bus (some (accountsOf [MBus.mk 2 5, MBus.mk 1 7])) 0 = b.id ∧
        b.id < BUS_COUNT ∧
        ∀ b2 ∈ [MBus.mk 2 5, MBus.mk 1 7], b2.rewards ≤ b.rewards :=
  find_bus_selects_max [MBus.mk 2 5, MBus.mk 1 7] 0 (by decide)
    ⟨MBus.mk 2 5, by decide⟩

/-- C8: when the batch fetch fails outright, `find_bus` does not propagate
an error: for every value of the random draw the result is an in-range
index into the fixed `BUS_ADDRESSES` array, hence one of the fixed
addresses. -/
theorem find_bus_fallback_in_range (rng : Nat) :
    find_bus none rng < BUS_COUNT := by
  show rng % BUS_COUNT < BUS_COUNT
  exact Nat.mod_lt _ (by decide)

/-! ## Checked indexing for the bus fold (C10)

Line 270 indexes `BUS_ADDRESSES[bus.id as usize]` with no bounds check,
and only inside the winning branch of the comparison.  The checked variant
makes the out-of-bounds panic an explicit `none`. -/

/-- Bounds-checked model of `BUS_ADDRESSES[i]`. -/
def busAddrIndex (i : Nat) : Option Nat :=
  if i < BUS_COUNT then some i else none

/-- The bus fold with the array indexing made fallible: `none` is the
panicking out-of-bounds branch. -/
def find_bus_checked : List MBus → Nat × Nat → Option (Nat × Nat)
  | [], acc => some acc
  | b :: bs, acc =>
      if b.rewards > acc.1 then
        match busAddrIndex b.id with
        | some addr => find_bus_checked bs (b.rewards, addr)
        | none => none
      else find_bus_checked bs acc

/-- C10: under the precondition that every successfully deserialized bus
has `id < BUS_COUNT`, the out-of-bounds branch of the indexing is
unreachable and the checked fold agrees with the unchecked one; without
the precondition the panicking branch is reachable (a winning bus with
`id = BUS_COUNT`). -/
theorem find_bus_checked_safe :
    (∀ (bs : List MBus) (acc : Nat × Nat), (∀ b ∈ bs, b.id < BUS_COUNT) →
        find_bus_checked bs acc = some (bs.foldl busStep acc)) ∧
      find_bus_checked [MBus.mk BUS_COUNT 1] (0, 0) = none := by
  constructor
  · intro bs
    induction bs with
    | nil => intro acc _; rfl
    | cons hd tl ih =>
        intro acc h
        have hhd : hd.id < BUS_COUNT := h hd (List.mem_cons_self _ _)
        have htl : ∀ b ∈ tl, b.id < BUS_COUNT :=
          fun b hb => h b (List.mem_cons_of_mem _ hb)
        rw [List.foldl_cons]
        unfold find_bus_checked busStep
        by_cases hcmp : hd.rewards > acc.1
        · rw [if_pos hcmp, if_pos hcmp]
          have : busAddrIndex hd.id = some hd.id := by
            unfold busAddrIndex; rw [if_pos hhd]
          rw [this]
          exact ih (hd.rewards, hd.id) htl
        · rw [if_neg hcmp, if_neg hcmp]
          exact ih acc htl
  · rfl

/-- C10 witness. -/
theorem find_bus_checked_safe_witness :
    find_bus_checked [MBus.mk 0 5] (0, 0) =
      some (List.foldl busStep (0, 0) [MBus.mk 0 5]) :=
  find_bus_checked_safe.1 [MBus.mk 0 5] (0, 0) (by decide)

/-! ## Nonce-space partitioning (`find_hash_par`, src/mine.rs lines 115-121)

`nonce_step = u64::MAX / num_threads` and worker `i` receives the half-open
range `[nonce_step * i, nonce_step * (i + 1))`.  All products are at most
`u64::MAX`, so `u64` arithmetic never wraps and `Nat` is an exact model. -/

/-- `u64::MAX / num_threads` (line 118). -/
def nonce_step (n : Nat) : Nat := u64Max / n

/-- The range handed to worker `i` (lines 119-121). -/
def nonce_range (n i : Nat) : Nat × Nat :=
  (nonce_step n * i, nonce_step n * (i + 1))

/-- The vector of ranges built by `find_hash_par`. -/
def nonce_ranges (n : Nat) : List (Nat × Nat) :=
  (List.range n).map (nonce_range n)

/-- Membership in a half-open range `(start, end)`. -/
def inRange (r : Nat × Nat) (x : Nat) : Prop := r.1 ≤ x ∧ x < r.2

instance instDecidableInRange (r : Nat × Nat) (x : Nat) :
    Decidable (inRange r x) :=
  inferInstanceAs (Decidable (_ ∧ _))

/-- A nonce is covered when some generated range contains it. -/
def covered (n x : Nat) : Prop := ∃ r ∈ nonce_ranges n, inRange r x

instance instDecidableCovered (n x : Nat) : Decidable (covered n x) :=
  inferInstanceAs (Decidable (∃ r ∈ nonce_ranges n, inRange r x))

theorem covered_iff (n x : Nat) : covered n x ↔ x < nonce_step n * n := by
  constructor
  · rintro ⟨r, hr, h1, h2⟩
    obtain ⟨i, hi, rfl⟩ := List.mem_map.mp hr
    have hin : i < n := List.mem_range.mp hi
    have hle : nonce_step n * (i + 1) ≤ nonce_step n * n :=
      Nat.mul_le_mul_left _ hin
    exact Nat.lt_of_lt_of_le h2 hle
  · intro hx
    have hs : 0 < nonce_step n := by
      rcases Nat.eq_zero_or_pos (nonce_step n) with h0 | hpos
      · rw [h0, Nat.zero_mul] at hx; omega
      · exact hpos
    refine ⟨nonce_range n (x / nonce_step n), ?_, ?_, ?_⟩
    · exact List.mem_map_of_mem _ (List.mem_range.mpr
        ((Nat.div_lt_iff_lt_mul hs).mpr (by rw [Nat.mul_comm] at hx; exact hx)))
    · show nonce_step n * (x / nonce_step n) ≤ x
      exact Nat.le.intro (Nat.div_add_mod x (nonce_step n))
    · show x < nonce_step n * (x / nonce_step n + 1)
      rw [Nat.mul_succ]
      have hmod := Nat.div_add_mod x (nonce_step n)
      have hr := Nat.mod_lt x hs
      omega

/-- C1: the claim says the union of the generated ranges is exactly
`[0, 2^64)`; already with a single worker the top nonce `2^64 - 1` is in
no range, because `nonce_step = u64::MAX / n` and the last range ends at
`nonce_step * n ≤ u64::MAX`, with no remainder absorption. -/
theorem nonce_ranges_not_full_cover :
    u64Max < 2 ^ 64 ∧ ¬ covered 1 u64Max := by
  constructor
  · decide
  · decide

/-- C1 (amended): for every worker count the generated ranges are pairwise
disjoint and contiguous, but their union is exactly
`[0, nonce_step n * n)` — a strict subset of `[0, 2^64)`: the final range
does not absorb the integer-division remainder, and in particular the top
nonce `2^64 - 1` is never assigned to any worker. -/
theorem nonce_ranges_disjoint_cover (n : Nat) :
    (∀ i j x, i ≠ j →
        ¬ (inRange (nonce_range n i) x ∧ inRange (nonce_range n j) x)) ∧
      (∀ x, covered n x ↔ x < nonce_step n * n) ∧
      nonce_step n * n ≤ u64Max ∧
      ¬ covered n u64Max := by
  have hbound : nonce_step n * n ≤ u64Max := by
    rw [Nat.mul_comm]
    exact Nat.mul_div_le u64Max n
  refine ⟨?_, covered_iff n, hbound, ?_⟩
  · intro i j x hne ⟨⟨h1i, h2i⟩, ⟨h1j, h2j⟩⟩
    rcases Nat.lt_or_ge i j with hij | hij
    · have hle : nonce_step n * (i + 1) ≤ nonce_step n * j :=
        Nat.mul_le_mul_left _ hij
      exact Nat.lt_irrefl x
        (Nat.lt_of_lt_of_le (Nat.lt_of_lt_of_le h2i hle) h1j)
    · have hji : j < i := Nat.lt_of_le_of_ne hij (fun h => hne h.symm)
      have hle : nonce_step n * (j + 1) ≤ nonce_step n * i :=
        Nat.mul_le_mul_left _ hji
      exact Nat.lt_irrefl x
        (Nat.lt_of_lt_of_le (Nat.lt_of_lt_of_le h2j hle) h1i)
  · rw [covered_iff]
    omega

/-- C1 witness. -/
theorem nonce_ranges_disjoint_cover_witness :
    (¬ (inRange (nonce_range 2 0) 0 ∧ inRange (nonce_range 2 1) 0)) ∧
      (covered 2 5 ↔ 5 < nonce_step 2 * 2) :=
  ⟨(nonce_ranges_disjoint_cover 2).1 0 1 0 (by decide),
    (nonce_ranges_disjoint_cover 2).2.1 5⟩

/-! ## Worker solver (`find_hash_par`, src/mine.rs lines 128-189)

Each worker scans its range in ascending order.  Per nonce it calls
`drillx::hash_with_memory` (modelled by the oracle
`hashFn : Nat → Option MHash`: `none` is the expected per-nonce failure,
silently skipped), updates its local best on a strictly greater
difficulty (and then raises the shared best — see `globalUpdate` below),
increments the shared hash counter, and finally checks termination:
break when the elapsed wall-clock seconds reach `cutoff_time` AND the
shared best difficulty has reached `min_difficulty`.  The two
time-and-shared-state reads of iteration `k` are supplied by the oracles
`elapsedAt k` (seconds of `start_time.elapsed()` at the k-th check) and
`globalAt k` (value of `global_best_difficulty` read at the k-th check,
reflecting the interleaved guarded writes of all workers). -/

/-- A `drillx::Hash`: its digest `d` and derived `difficulty()` score,
treated as an opaque external capability. -/
structure MHash where
  d : List Nat
  diff : Nat
  deriving DecidableEq, Repr

/-- `Hash::default()` (line 147). -/
def mhashDefault : MHash := ⟨[], 0⟩

/-- Result of one worker: the returned triple plus the number of nonces
attempted (each attempt is one hash call followed by one termination
check). -/
structure WorkerOut where
  bestNonce : Nat
  bestDiff : Nat
  bestHash : MHash
  attempts : Nat
  deriving DecidableEq, Repr

/-- One hash attempt (lines 151-168): on hash success with a strictly
greater difficulty, replace the local best triple; otherwise keep it. -/
def attemptStep (hashFn : Nat → Option MHash) (nonce bn bd : Nat)
    (bh : MHash) : Nat × Nat × MHash :=
  match hashFn nonce with
  | some hx => if bd < hx.diff then (nonce, hx.diff, hx) else (bn, bd, bh)
  | none => (bn, bd, bh)

/-- The scan loop (lines 150-181), fuel = number of nonces left in the
range.  After each attempt the termination check fires exactly when
`elapsedAt k ≥ cutoff_time` and `globalAt k ≥ min_difficulty`; otherwise
the nonce is incremented and scanning continues until the range is
exhausted. -/
def solveAux (hashFn : Nat → Option MHash) (elapsedAt globalAt : Nat → Nat)
    (cutoff_time min_difficulty : Nat) :
    Nat → Nat → Nat → Nat → Nat → MHash → WorkerOut
  | 0, _nonce, k, bn, bd, bh => ⟨bn, bd, bh, k⟩
  | fuel + 1, nonce, k, bn, bd, bh =>
      let a := attemptStep hashFn nonce bn bd bh
      if cutoff_time ≤ elapsedAt k ∧ min_difficulty ≤ globalAt k then
        ⟨a.1, a.2.1, a.2.2, k + 1⟩
      else
        solveAux hashFn elapsedAt globalAt cutoff_time min_difficulty
          fuel (nonce + 1) (k + 1) a.1 a.2.1 a.2.2

/-- One whole worker run over `[start_nonce, end_nonce)`: local best
initialized to `(start_nonce, 0, Hash::default())` (lines 144-147). -/
def workerSolve (hashFn : Nat → Option MHash) (elapsedAt globalAt : Nat → Nat)
    (cutoff_time min_difficulty start_nonce end_nonce : Nat) : WorkerOut :=
  solveAux hashFn elapsedAt globalAt cutoff_time min_difficulty
    (end_nonce - start_nonce) start_nonce 0 start_nonce 0 mhashDefault

/-- The guarded write to the shared best-difficulty cell (lines 162-166):
under the write lock, replace the stored value only when the candidate is
strictly greater.  This is the sole mutation of `global_best_difficulty`. -/
def globalUpdate (g d : Nat) : Nat := if d > g then d else g

/-! ## Scheduler reduction (`find_hash_par`, src/mine.rs lines 192-217) -/

/-- The `Solution::new(best_hash.d, best_nonce.to_le_bytes())` pair. -/
structure MSolution where
  d : List Nat
  nonce : Nat
  deriving DecidableEq, Repr

/-- One step of the post-join reduction (lines 196-202): keep the joined
triple only on a strictly greater difficulty. -/
def reduceStep (best t : Nat × Nat × MHash) : Nat × Nat × MHash :=
  if t.2.1 > best.2.1 then t else best

/-- The reduction over all joined worker triples, starting from
`(0, 0, Hash::default())` (lines 192-194). -/
def reduceResults (ts : List (Nat × Nat × MHash)) : Nat × Nat × MHash :=
  ts.foldl reduceStep (0, 0, mhashDefault)

/-- Maximum difficulty over a list of triples. -/
def maxDifficulty (ts : List (Nat × Nat × MHash)) : Nat :=
  ts.foldl (fun m t => max m t.2.1) 0

/-- The triple a worker hands back on join. -/
def outTriple (w : WorkerOut) : Nat × Nat × MHash :=
  (w.bestNonce, w.bestDiff, w.bestHash)

/-- The outputs of the `n` spawned workers, worker `i` scanning
`nonce_range n i` with its own observation oracles. -/
def workerOutputs (hashFn : Nat → Option MHash)
    (elapsedAt globalAt : Nat → Nat → Nat)
    (cutoff_time min_difficulty n : Nat) : List WorkerOut :=
  (List.range n).map fun i =>
    workerSolve hashFn (elapsedAt i) (globalAt i) cutoff_time min_difficulty
      (nonce_range n i).1 (nonce_range n i).2

/-- The joined triples in reduction order. -/
def schedulerTriples (hashFn : Nat → Option MHash)
    (elapsedAt globalAt : Nat → Nat → Nat)
    (cutoff_time min_difficulty n : Nat) : List (Nat × Nat × MHash) :=
  (workerOutputs hashFn elapsedAt globalAt cutoff_time min_difficulty n).map
    outTriple

/-- `find_hash_par`: reduce the joined triples and build the returned
`Solution` from the winning digest and nonce (line 217). -/
def find_hash_par (hashFn : Nat → Option MHash)
    (elapsedAt globalAt : Nat → Nat → Nat)
    (cutoff_time min_difficulty n : Nat) : MSolution :=
  let b := reduceResults
    (schedulerTriples hashFn elapsedAt globalAt cutoff_time min_difficulty n)
  ⟨b.2.2.d, b.1⟩

/-! ## Worker-loop lemmas -/

theorem attemptStep_diff_le (hf : Nat → Option MHash) (nonce bn bd : Nat)
    (bh : MHash) : bd ≤ (attemptStep hf nonce bn bd bh).2.1 := by
  rcases hh : hf nonce with _ | hx
  · simp [attemptStep, hh]
  · by_cases h : bd < hx.diff
    · simp only [attemptStep, hh]
      rw [if_pos h]
      exact Nat.le_of_lt h
    · simp only [attemptStep, hh]
      rw [if_neg h]

theorem attemptStep_cases (hf : Nat → Option MHash) (nonce bn bd : Nat)
    (bh : MHash) :
    attemptStep hf nonce bn bd bh = (bn, bd, bh) ∨
      0 < (attemptStep hf nonce bn bd bh).2.1 := by
  rcases hh : hf nonce with _ | hx
  · simp [attemptStep, hh]
  · by_cases h : bd < hx.diff
    · right
      simp only [attemptStep, hh]
      rw [if_pos h]
      show 0 < hx.diff
      omega
    · left
      simp only [attemptStep, hh]
      rw [if_neg h]

theorem solveAux_attempts_le (hf : Nat → Option MHash) (e g : Nat → Nat)
    (c m : Nat) :
    ∀ (fuel nonce k bn bd : Nat) (bh : MHash),
      k ≤ (solveAux hf e g c m fuel nonce k bn bd bh).attempts ∧
        (solveAux hf e g c m fuel nonce k bn bd bh).attempts ≤ k + fuel := by
  intro fuel
  induction fuel with
  | zero => intro nonce k bn bd bh; exact ⟨Nat.le_refl _, Nat.le_refl _⟩
  | succ fuel ih =>
      intro nonce k bn bd bh
      simp only [solveAux]
      split
      · constructor
        · show k ≤ k + 1
          omega
        · show k + 1 ≤ k + (fuel + 1)
          omega
      · obtain ⟨h1, h2⟩ := ih (nonce + 1) (k + 1)
          (attemptStep hf nonce bn bd bh).1 (attemptStep hf nonce bn bd bh).2.1
          (attemptStep hf nonce bn bd bh).2.2
        exact ⟨by omega, by omega⟩

theorem solveAux_attempts_pos (hf : Nat → Option MHash) (e g : Nat → Nat)
    (c m : Nat) :
    ∀ (fuel nonce k bn bd : Nat) (bh : MHash), 0 < fuel →
      k + 1 ≤ (solveAux hf e g c m fuel nonce k bn bd bh).attempts := by
  intro fuel
  cases fuel with
  | zero => intro nonce k bn bd bh hpos; omega
  | succ fuel =>
      intro nonce k bn bd bh _
      simp only [solveAux]
      split
      · show k + 1 ≤ k + 1
        omega
      · exact (solveAux_attempts_le hf e g c m fuel (nonce + 1) (k + 1)
          (attemptStep hf nonce bn bd bh).1 (attemptStep hf nonce bn bd bh).2.1
          (attemptStep hf nonce bn bd bh).2.2).1

theorem solveAux_diff_le (hf : Nat → Option MHash) (e g : Nat → Nat)
    (c m : Nat) :
    ∀ (fuel nonce k bn bd : Nat) (bh : MHash),
      bd ≤ (solveAux hf e g c m fuel nonce k bn bd bh).bestDiff := by
  intro fuel
  induction fuel with
  | zero => intro nonce k bn bd bh; exact Nat.le_refl _
  | succ fuel ih =>
      intro nonce k bn bd bh
      simp only [solveAux]
      split
      · show bd ≤ (attemptStep hf nonce bn bd bh).2.1
        exact attemptStep_diff_le hf nonce bn bd bh
      · exact Nat.le_trans (attemptStep_diff_le hf nonce bn bd bh)
          (ih (nonce + 1) (k + 1) _ _ _)

theorem solveAux_break_conditions (hf : Nat → Option MHash) (e g : Nat → Nat)
    (c m : Nat) :
    ∀ (fuel nonce k bn bd : Nat) (bh : MHash),
      (solveAux hf e g c m fuel nonce k bn bd bh).attempts < k + fuel →
        c ≤ e ((solveAux hf e g c m fuel nonce k bn bd bh).attempts - 1) ∧
          m ≤ g ((solveAux hf e g c m fuel nonce k bn bd bh).attempts - 1) := by
  intro fuel
  induction fuel with
  | zero =>
      intro nonce k bn bd bh hlt
      simp only [solveAux] at hlt
      omega
  | succ fuel ih =>
      intro nonce k bn bd bh
      simp only [solveAux]
      split
      · rename_i hcond
        intro _
        show c ≤ e (k + 1 - 1) ∧ m ≤ g (k + 1 - 1)
        simpa using hcond
      · intro hlt
        exact ih (nonce + 1) (k + 1) _ _ _ (by omega)

theorem solveAux_diff_zero (hf : Nat → Option MHash) (e g : Nat → Nat)
    (c m : Nat) :
    ∀ (fuel nonce k bn bd : Nat) (bh : MHash),
      (solveAux hf e g c m fuel nonce k bn bd bh).bestDiff = 0 →
        (solveAux hf e g c m fuel nonce k bn bd bh).bestNonce = bn ∧
          (solveAux hf e g c m fuel nonce k bn bd bh).bestHash = bh := by
  intro fuel
  induction fuel with
  | zero => intro nonce k bn bd bh _; exact ⟨rfl, rfl⟩
  | succ fuel ih =>
      intro nonce k bn bd bh
      simp only [solveAux]
      rcases attemptStep_cases hf nonce bn bd bh with hkeep | hpos
      · rw [hkeep]
        split
        · intro _
          exact ⟨rfl, rfl⟩
        · exact ih (nonce + 1) (k + 1) bn bd bh
      · split
        · intro hzero
          show (attemptStep hf nonce bn bd bh).1 = bn ∧
            (attemptStep hf nonce bn bd bh).2.2 = bh
          have hdz : (attemptStep hf nonce bn bd bh).2.1 = 0 := hzero
          omega
        · intro hzero
          have hmono := solveAux_diff_le hf e g c m fuel (nonce + 1) (k + 1)
            (attemptStep hf nonce bn bd bh).1 (attemptStep hf nonce bn bd bh).2.1
            (attemptStep hf nonce bn bd bh).2.2
          rw [hzero] at hmono
          omega

theorem solveAux_first_break (hf : Nat → Option MHash) (e g : Nat → Nat)
    (c m : Nat) :
    ∀ (j fuel nonce k bn bd : Nat) (bh : MHash),
      (∀ i, k ≤ i → i < k + j → ¬ (c ≤ e i ∧ m ≤ g i)) →
      (c ≤ e (k + j) ∧ m ≤ g (k + j)) → j < fuel →
      (solveAux hf e g c m fuel nonce k bn bd bh).attempts = k + j + 1 := by
  intro j
  induction j with
  | zero =>
      intro fuel nonce k bn bd bh hnone hcond hlt
      obtain ⟨f2, rfl⟩ : ∃ f2, fuel = f2 + 1 := ⟨fuel - 1, by omega⟩
      rw [Nat.add_zero] at hcond
      simp only [solveAux]
      rw [if_pos hcond]
  | succ j ih =>
      intro fuel nonce k bn bd bh hnone hcond hlt
      obtain ⟨f2, rfl⟩ : ∃ f2, fuel = f2 + 1 := ⟨fuel - 1, by omega⟩
      simp only [solveAux]
      rw [if_neg (hnone k (Nat.le_refl k) (by omega))]
      have hnone2 : ∀ i, k + 1 ≤ i → i < k + 1 + j →
          ¬ (c ≤ e i ∧ m ≤ g i) :=
        fun i hi1 hi2 => hnone i (by omega) (by omega)
      have hcond2 : c ≤ e (k + 1 + j) ∧ m ≤ g (k + 1 + j) := by
        have heq : k + 1 + j = k + (j + 1) := by omega
        rw [heq]
        exact hcond
      have h2 := ih f2 (nonce + 1) (k + 1)
        (attemptStep hf nonce bn bd bh).1 (attemptStep hf nonce bn bd bh).2.1
        (attemptStep hf nonce bn bd bh).2.2 hnone2 hcond2 (by omega)
      rw [h2]
      omega

/-- C4: a worker never stops scanning before exhausting its assigned range
unless, at the post-attempt check of its last evaluated nonce, the elapsed
wall-clock time has reached `cutoff_time` AND the shared best difficulty
observed there has reached `min_difficulty` (the check reads the shared
signal, so it can fire even when the worker itself never reached
`min_difficulty`); moreover the check only runs after an attempt, so on a
nonempty range at least one nonce is always evaluated, and with
`cutoff_time = 0` and `min_difficulty = 0` the worker stops right after
that first attempt. -/
theorem workerSolve_termination (hf : Nat → Option MHash) (e g : Nat → Nat)
    (c m start_nonce end_nonce : Nat) (h : start_nonce < end_nonce) :
    1 ≤ (workerSolve hf e g c m start_nonce end_nonce).attempts ∧
      ((workerSolve hf e g c m start_nonce end_nonce).attempts <
          end_nonce - start_nonce →
        c ≤ e ((workerSolve hf e g c m start_nonce end_nonce).attempts - 1) ∧
          m ≤ g ((workerSolve hf e g c m start_nonce end_nonce).attempts - 1)) ∧
      (c = 0 → m = 0 →
        (workerSolve hf e g c m start_nonce end_nonce).attempts = 1) ∧
      (∀ j, (∀ i, i < j → ¬ (c ≤ e i ∧ m ≤ g i)) →
        (c ≤ e j ∧ m ≤ g j) → j < end_nonce - start_nonce →
        (workerSolve hf e g c m start_nonce end_nonce).attempts = j + 1) := by
  refine ⟨?_, ?_, ?_, ?_⟩
  · exact solveAux_attempts_pos hf e g c m (end_nonce - start_nonce)
      start_nonce 0 start_nonce 0 mhashDefault (by omega)
  · intro hlt
    unfold workerSolve at hlt ⊢
    exact solveAux_break_conditions hf e g c m (end_nonce - start_nonce)
      start_nonce 0 start_nonce 0 mhashDefault (by omega)
  · intro hc hm
    subst hc hm
    unfold workerSolve
    obtain ⟨f, hfeq⟩ : ∃ f, end_nonce - start_nonce = f + 1 :=
      ⟨end_nonce - start_nonce - 1, by omega⟩
    rw [hfeq]
    simp only [solveAux]
    rw [if_pos ⟨Nat.zero_le _, Nat.zero_le _⟩]
  · intro j hnone hcond hlt
    have h2 := solveAux_first_break hf e g c m j (end_nonce - start_nonce)
      start_nonce 0 start_nonce 0 mhashDefault
      (fun i _ hi2 => hnone i (by omega)) (by simpa using hcond) (by omega)
    unfold workerSolve
    rw [h2]
    omega

/-- C4 witness. -/
theorem workerSolve_termination_witness :
    0 < 3 ∧
      (workerSolve (fun _ => none) (fun _ => 0) (fun _ => 0) 0 0 0 3).attempts = 1 :=
  ⟨by decide,
    (workerSolve_termination (fun _ => none) (fun _ => 0) (fun _ => 0) 0 0 0 3
      (by decide)).2.2.1 rfl rfl⟩

/-- C9: the shared best-difficulty cell is monotonically non-decreasing:
its sole mutation is the guarded `globalUpdate`, which never lowers the
stored value (it replaces it only by a strictly greater difficulty, i.e.
it computes the maximum), and any sequence of such updates leaves the cell
at least as high as it started. -/
theorem globalUpdate_monotone :
    (∀ g d, g ≤ globalUpdate g d ∧ globalUpdate g d = max g d ∧
        (globalUpdate g d ≠ g → g < d ∧ globalUpdate g d = d)) ∧
      ∀ (g : Nat) (ds : List Nat), g ≤ ds.foldl globalUpdate g := by
  have hstep : ∀ g d, g ≤ globalUpdate g d ∧ globalUpdate g d = max g d ∧
      (globalUpdate g d ≠ g → g < d ∧ globalUpdate g d = d) := by
    intro g d
    unfold globalUpdate
    by_cases h : d > g
    · rw [if_pos h]
      exact ⟨Nat.le_of_lt h, (Nat.max_eq_right (Nat.le_of_lt h)).symm,
        fun _ => ⟨h, rfl⟩⟩
    · rw [if_neg h]
      exact ⟨Nat.le_refl _, (Nat.max_eq_left (by omega)).symm,
        fun hne => absurd rfl hne⟩
  refine ⟨hstep, ?_⟩
  intro g ds
  induction ds generalizing g with
  | nil => exact Nat.le_refl _
  | cons d ds ih =>
      exact Nat.le_trans (hstep g d).1 (ih (globalUpdate g d))

/-! ## Reduction lemmas -/

theorem foldl_max_eq (ts : List (Nat × Nat × MHash)) :
    ∀ c, ts.foldl (fun m t => max m t.2.1) c = max c (maxDifficulty ts) := by
  induction ts with
  | nil => intro c; simp [maxDifficulty]
  | cons hd tl ih =>
      intro c
      rw [List.foldl_cons, ih (max c hd.2.1)]
      have hcons : maxDifficulty (hd :: tl) = max hd.2.1 (maxDifficulty tl) := by
        show (hd :: tl).foldl (fun m t => max m t.2.1) 0 = _
        rw [List.foldl_cons, ih (max 0 hd.2.1), Nat.zero_max]
      rw [hcons, Nat.max_assoc]

theorem maxDifficulty_cons (hd : Nat × Nat × MHash) (tl : List (Nat × Nat × MHash)) :
    maxDifficulty (hd :: tl) = max hd.2.1 (maxDifficulty tl) := by
  show (hd :: tl).foldl (fun m t => max m t.2.1) 0 = _
  rw [List.foldl_cons, foldl_max_eq tl (max 0 hd.2.1), Nat.zero_max]

theorem mem_le_maxDifficulty (ts : List (Nat × Nat × MHash)) :
    ∀ t ∈ ts, t.2.1 ≤ maxDifficulty ts := by
  induction ts with
  | nil => intro t ht; cases ht
  | cons hd tl ih =>
      intro t ht
      rw [maxDifficulty_cons]
      rcases List.mem_cons.mp ht with rfl | htl
      · exact Nat.le_max_left _ _
      · exact Nat.le_trans (ih t htl) (Nat.le_max_right _ _)

theorem reduceStep_snd (best t : Nat × Nat × MHash) :
    (reduceStep best t).2.1 = max best.2.1 t.2.1 := by
  unfold reduceStep
  by_cases h : t.2.1 > best.2.1
  · rw [if_pos h]
    exact (Nat.max_eq_right (Nat.le_of_lt h)).symm
  · rw [if_neg h]
    exact (Nat.max_eq_left (by omega)).symm

theorem foldl_reduce_fst (ts : List (Nat × Nat × MHash)) :
    ∀ init, (ts.foldl reduceStep init).2.1 =
      ts.foldl (fun m t => max m t.2.1) init.2.1 := by
  induction ts with
  | nil => intro init; rfl
  | cons hd tl ih =>
      intro init
      rw [List.foldl_cons, List.foldl_cons, ih (reduceStep init hd),
        reduceStep_snd]

theorem foldl_reduce_id (ts : List (Nat × Nat × MHash)) (init : Nat × Nat × MHash)
    (h : ∀ t ∈ ts, t.2.1 ≤ init.2.1) : ts.foldl reduceStep init = init := by
  induction ts with
  | nil => rfl
  | cons hd tl ih =>
      rw [List.foldl_cons]
      have hstep : reduceStep init hd = init := by
        unfold reduceStep
        rw [if_neg]
        have := h hd (List.mem_cons_self _ _)
        omega
      rw [hstep]
      exact ih (fun t ht => h t (List.mem_cons_of_mem _ ht))

theorem find?_max_eq_foldl (ts : List (Nat × Nat × MHash)) :
    ∀ (init : Nat × Nat × MHash) (M : Nat), maxDifficulty ts = M →
      init.2.1 < M →
      ts.find? (fun t => decide (t.2.1 = M)) =
        some (ts.foldl reduceStep init) := by
  induction ts with
  | nil =>
      intro init M hM hlt
      exfalso
      unfold maxDifficulty at hM
      simp at hM
      omega
  | cons hd tl ih =>
      intro init M hM hlt
      rw [maxDifficulty_cons] at hM
      by_cases hhd : hd.2.1 = M
      · rw [List.find?_cons_of_pos _ (by simp [hhd])]
        have hstep : reduceStep init hd = hd := by
          unfold reduceStep
          rw [if_pos]
          omega
        rw [List.foldl_cons, hstep]
        have htl0 : maxDifficulty tl ≤ M := hM ▸ Nat.le_max_right _ _
        rw [foldl_reduce_id tl hd]
        intro t ht
        have := mem_le_maxDifficulty tl t ht
        omega
      · rw [List.find?_cons_of_neg _ (by simp [hhd])]
        have hhdle : hd.2.1 ≤ M := hM ▸ Nat.le_max_left _ _
        have hhdlt : hd.2.1 < M := by omega
        have htlM : maxDifficulty tl = M := by
          rcases Nat.le_total hd.2.1 (maxDifficulty tl) with hle | hle
          · rw [Nat.max_eq_right hle] at hM
            exact hM
          · rw [Nat.max_eq_left hle] at hM
            omega
        rw [List.foldl_cons]
        apply ih (reduceStep init hd) M htlM
        rw [reduceStep_snd]
        exact Nat.max_lt.mpr ⟨hlt, hhdlt⟩

theorem find?_max_eq_reduceResults (ts : List (Nat × Nat × MHash))
    (hne : ts ≠ [])
    (hhead : maxDifficulty ts = 0 → ts.head? = some (0, 0, mhashDefault)) :
    ts.find? (fun t => decide (t.2.1 = maxDifficulty ts)) =
      some (reduceResults ts) := by
  by_cases hM : maxDifficulty ts = 0
  · have hh := hhead hM
    cases ts with
    | nil => exact absurd rfl hne
    | cons hd tl =>
        have hhd : hd = (0, 0, mhashDefault) := by simpa using hh
        subst hhd
        have hred : reduceResults ((0, 0, mhashDefault) :: tl) =
            (0, 0, mhashDefault) := by
          unfold reduceResults
          apply foldl_reduce_id
          intro t ht
          have hle := mem_le_maxDifficulty ((0, 0, mhashDefault) :: tl) t ht
          rw [hM] at hle
          exact hle
        rw [hred, hM]
        exact List.find?_cons_of_pos _ (by simp)
  · exact find?_max_eq_foldl ts (0, 0, mhashDefault) (maxDifficulty ts) rfl
      (by show (0 : Nat) < maxDifficulty ts; omega)

theorem schedulerTriples_head (hashFn : Nat → Option MHash)
    (elapsedAt globalAt : Nat → Nat → Nat)
    (cutoff_time min_difficulty n2 : Nat) :
    (schedulerTriples hashFn elapsedAt globalAt cutoff_time min_difficulty
        (n2 + 1)).head? =
      some (outTriple (workerSolve hashFn (elapsedAt 0) (globalAt 0)
        cutoff_time min_difficulty (nonce_range (n2 + 1) 0).1
        (nonce_range (n2 + 1) 0).2)) := by
  unfold schedulerTriples workerOutputs
  rw [List.range_succ_eq_map]
  simp

theorem schedulerTriples_length (hashFn : Nat → Option MHash)
    (elapsedAt globalAt : Nat → Nat → Nat)
    (cutoff_time min_difficulty n : Nat) :
    (schedulerTriples hashFn elapsedAt globalAt cutoff_time min_difficulty
        n).length = n := by
  unfold schedulerTriples workerOutputs
  simp

/-- C3: assuming every worker joins (the model has no join failures), the
difficulty selected by the post-join reduction equals the maximum
difficulty over the triples of all workers, the reduction result is exactly the
first triple in reduction order achieving that maximum (first-encountered
tie-break), and the returned `Solution` is built from the digest
and nonce of that triple. -/
theorem find_hash_par_selects_best (hashFn : Nat → Option MHash)
    (elapsedAt globalAt : Nat → Nat → Nat)
    (cutoff_time min_difficulty n : Nat) (hn : 1 ≤ n) :
    (reduceResults (schedulerTriples hashFn elapsedAt globalAt cutoff_time
          min_difficulty n)).2.1 =
        maxDifficulty (schedulerTriples hashFn elapsedAt globalAt cutoff_time
          min_difficulty n) ∧
      (schedulerTriples hashFn elapsedAt globalAt cutoff_time
          min_difficulty n).find?
          (fun t => decide (t.2.1 = maxDifficulty (schedulerTriples hashFn
            elapsedAt globalAt cutoff_time min_difficulty n))) =
        some (reduceResults (schedulerTriples hashFn elapsedAt globalAt
          cutoff_time min_difficulty n)) ∧
      find_hash_par hashFn elapsedAt globalAt cutoff_time min_difficulty n =
        ⟨(reduceResults (schedulerTriples hashFn elapsedAt globalAt
            cutoff_time min_difficulty n)).2.2.d,
          (reduceResults (schedulerTriples hashFn elapsedAt globalAt
            cutoff_time min_difficulty n)).1⟩ := by
  obtain ⟨n2, rfl⟩ : ∃ n2, n = n2 + 1 := ⟨n - 1, by omega⟩
  refine ⟨?_, ?_, rfl⟩
  · show (List.foldl reduceStep (0, 0, mhashDefault) _).2.1 = _
    rw [foldl_reduce_fst]
    rfl
  · apply find?_max_eq_reduceResults
    · intro hnil
      have hlen := schedulerTriples_length hashFn elapsedAt globalAt
        cutoff_time min_difficulty (n2 + 1)
      rw [hnil] at hlen
      simp at hlen
    · intro hM0
      rw [schedulerTriples_head]
      set w0 := workerSolve hashFn (elapsedAt 0) (globalAt 0) cutoff_time
        min_difficulty (nonce_range (n2 + 1) 0).1 (nonce_range (n2 + 1) 0).2
        with hw0
      have hmem : outTriple w0 ∈ schedulerTriples hashFn elapsedAt globalAt
          cutoff_time min_difficulty (n2 + 1) := by
        apply List.mem_of_mem_head?
        rw [schedulerTriples_head]
        rfl
      have hle := mem_le_maxDifficulty _ _ hmem
      rw [hM0] at hle
      have hdz : w0.bestDiff = 0 := by
        have hproj : (outTriple w0).2.1 = w0.bestDiff := rfl
        omega
      have hsz := solveAux_diff_zero hashFn (elapsedAt 0) (globalAt 0)
        cutoff_time min_difficulty
        ((nonce_range (n2 + 1) 0).2 - (nonce_range (n2 + 1) 0).1)
        (nonce_range (n2 + 1) 0).1 0 (nonce_range (n2 + 1) 0).1 0
        mhashDefault hdz
      have h1 : w0.bestNonce = 0 := hsz.1
      have h3 : w0.bestHash = mhashDefault := hsz.2
      show some (outTriple w0) = _
      rw [show outTriple w0 = (w0.bestNonce, w0.bestDiff, w0.bestHash)
        from rfl, h1, hdz, h3]

/-- C3 witness. -/
theorem find_hash_par_selects_best_witness :
    (1 : Nat) ≤ 1 ∧
      (reduceResults (schedulerTriples (fun _ => none) (fun _ _ => 0)
          (fun _ _ => 0) 0 0 1)).2.1 =
        maxDifficulty (schedulerTriples (fun _ => none) (fun _ _ => 0)
          (fun _ _ => 0) 0 0 1) :=
  ⟨by decide,
    (find_hash_par_selects_best (fun _ => none) (fun _ _ => 0) (fun _ _ => 0)
      0 0 1 (by decide)).1⟩

/-- C2 witness. -/
theorem worker_count_eq_available_witness :
    worker_count 8 4 = 8 ∧ (cores_warning 8 4 = true ↔ 8 < 4) :=
  worker_count_eq_available 8 4

/-- C8 witness. -/
theorem find_bus_fallback_in_range_witness :
    find_bus none 13 < BUS_COUNT :=
  find_bus_fallback_in_range 13

/-- C9 witness. -/
theorem globalUpdate_monotone_witness :
    3 ≤ globalUpdate 3 5 ∧ globalUpdate 3 5 = 5 ∧ 7 ≤ globalUpdate 7 5 :=
  ⟨(globalUpdate_monotone.1 3 5).1,
    ((globalUpdate_monotone.1 3 5).2.2 (by decide)).2,
    (globalUpdate_monotone.1 7 5).1⟩
